import Mathlib

/-!
# Verification of the lunascope analysis core

A shallow embedding of the execution core of lunascope
(src/lunascope/components/anal.py): the single-concurrency background job
executor, the evaluation-completion protocol, and the project-mode
sequential-evaluation / result-aggregation machinery in the AnalMixin class.

Conventions for the embedding:
* A result table (a pandas DataFrame) is modelled by STable: an ordered list
  of column names plus a list of rows, each row an association list from
  column name to cell text.
* A Python dict (used for self._proj_results and self.results) is modelled
  by an insertion-ordered association list: updating an existing key keeps
  its position, a new key is appended at the end.
* pandas DataFrame.drop_duplicates with its default keep="first" policy
  (used on the combined Command/Strata index in _finish_project_eval) is
  modelled by a seen-set traversal keeping the first occurrence of each row.
* The Qt/threading machinery (ThreadPoolExecutor, queued slot invocation)
  is collapsed into direct sequential composition: the single background
  lane runs one job to completion and its queued completion slot is
  processed before anything else happens, which is exactly the behaviour of
  the single-worker executor plus the Qt event queue for one in-flight job.
-/

/-- A `(command, stratum)` pair: one row of the strata listing returned by
the engine (`p.strata()`), and the identity of one result table. -/
abbrev RKey := String × String

/-- A result table: ordered column names plus rows, each row an association
list from column name to cell text.  Semantically opaque to the core. -/
structure STable where
  cols : List String
  rows : List (List (String × String))
deriving DecidableEq, Repr

/-- Model of `pd.concat([a, b], ignore_index=True)` as used in
`_accumulate_project_results`: the rows of `a` followed by the rows of `b`;
the column axis is the union of both label lists (labels of `a` first). -/
def concatTables (a b : STable) : STable :=
  { cols := a.cols ++ b.cols.filter (fun c => ¬ c ∈ a.cols)
    rows := a.rows ++ b.rows }

/-- Model of `df.drop(columns=[c])` as used in `_update_table`: removing the
named column; pandas raises KeyError when the label is absent, modelled by
`none`. -/
def dropColumn (c : String) (t : STable) : Option STable :=
  if c ∈ t.cols then
    some { cols := t.cols.filter (fun c2 => ¬ c2 = c)
           rows := t.rows.map (fun r => r.filter (fun kv => ¬ kv.1 = c)) }
  else none

/-- The dictionary key used for one result table throughout anal.py:
`f"{row.Command}_{row.Strata}"` (and `"_".join([cmd, stratum])` in
`_update_table`). -/
def joinKey (k : RKey) : String := k.1 ++ "_" ++ k.2

/-- Lookup in an insertion-ordered association list (Python dict read). -/
def alist_get (m : List (String × STable)) (k : String) : Option STable :=
  match m with
  | [] => none
  | (k2, v) :: rest => if k2 = k then some v else alist_get rest k

/-- Write to an insertion-ordered association list (Python dict write):
an existing key keeps its position, a new key is appended at the end. -/
def alist_set (m : List (String × STable)) (k : String) (v : STable) :
    List (String × STable) :=
  match m with
  | [] => [(k, v)]
  | (k2, v2) :: rest =>
      if k2 = k then (k, v) :: rest else (k2, v2) :: alist_set rest k v

/-- Seen-set traversal behind the model of drop_duplicates: keep an element
iff it has not been seen before, in traversal order.  This is precisely the
keep="first" policy of pandas DataFrame.drop_duplicates. -/
def ddAux (l : List RKey) (seen : List RKey) : List RKey :=
  match l with
  | [] => []
  | k :: ks => if k ∈ seen then ddAux ks seen else k :: ddAux ks (k :: seen)

/-- Model of `all_tbls.drop_duplicates(subset=["Command", "Strata"])` in
`_finish_project_eval` (the frames hold exactly those two columns, so
deduplicating on the subset is deduplicating whole rows): keep the first
occurrence of every row, preserving order. -/
def drop_duplicates (l : List RKey) : List RKey := ddAux l []

/-- A structured engine failure as recorded by the completion callback:
`self._last_tb = f"{type(exc).__name__}: {exc}"` — an exception kind plus a
message. -/
structure LunaErr where
  kind : String
  msg : String
deriving DecidableEq, Repr

/-- The formatted traceback string stored in `self._last_tb`. -/
def fmtErr (e : LunaErr) : String := e.kind ++ ": " ++ e.msg

/-- One terminal completion notification processed on the interactive
thread: an invocation of the `_eval_done_ok` slot or of the
`_eval_done_err` slot (carrying `self._last_tb`). -/
inductive Delivery where
  | ok : Delivery
  | err : String → Delivery
deriving DecidableEq, Repr

/-- The engine-side behaviour of one evaluation (one Job), as observed by
the core.  The engine binding itself (lunapi) is an external collaborator;
this record is the oracle for one `p.eval_lunascope` round:
* `eval`: the outcome of the engine call in the background lane
  (`fut.exception()` is `none` exactly when `eval` is `Except.ok`);
* `cbRaises`: an exception raised inside the `done` future-callback itself
  before the ok-slot is queued (the `except Exception as cb_exc` guard);
* `pullRaises`: an exception raised on the interactive thread inside
  `_eval_done_ok` while pulling tables (`self.p.strata()` raising);
* `strata`: the value of `self.p.strata()` — `none` models the engine
  returning no table listing for display-only commands;
* `table`: the value of `self.p.table(command, stratum)` per key. -/
structure RecordEval where
  eval : Except LunaErr String
  cbRaises : Option LunaErr
  pullRaises : Bool
  strata : Option (List RKey)
  table : RKey → STable

/-- The process-wide mutable state of the AnalMixin controller that the
claims are about, plus observation logs (deliveries, dialog and uncaught
exception counters, engine-call counter) for the completion protocol. -/
structure ScopeState where
  /-- `self._busy`: the BusyFlag guarding the single job lane. -/
  busy : Bool
  /-- `self.project_mode`. -/
  projectMode : Bool
  /-- `self._proj_i`: current record index (project mode). -/
  projI : Nat
  /-- `self._proj_n`: record count (project mode). -/
  projN : Nat
  /-- `self._proj_tbls`: ordered per-record key frames. -/
  projTbls : List (List RKey)
  /-- `self._proj_results`: insertion-ordered map joined-key -> table. -/
  projResults : List (String × STable)
  /-- `self.results`: the displayed result-table map. -/
  results : List (String × STable)
  /-- Content of the strata tree view (`self.ui.anal_tables`), as the list
  of `(Command, Strata)` rows it was last populated from. -/
  treeIndex : Option (List RKey)
  /-- Log: completion slots processed on the interactive thread, oldest
  first. -/
  deliveries : List Delivery
  /-- Count of error dialogs raised (`QMessageBox.critical`). -/
  errorDialogs : Nat
  /-- Count of exceptions escaping an interactive-thread slot uncaught. -/
  uncaughtSlotExc : Nat
  /-- Count of engine submissions (`self._exec.submit`). -/
  evalsStarted : Nat
deriving DecidableEq, Repr

/-- The controller state at startup. -/
def initState : ScopeState :=
  { busy := false, projectMode := false, projI := 0, projN := 0
    projTbls := [], projResults := [], results := [], treeIndex := none
    deliveries := [], errorDialogs := 0, uncaughtSlotExc := 0
    evalsStarted := 0 }

/-- `_exec_luna` up to handing the command to the background lane.
`hasP` is `hasattr(self, "p")` (an engine instance is attached).  Returns
the new state and whether a Job was actually submitted:
* no engine attached: error dialog, nothing submitted;
* BusyFlag set: plain `return` — nothing at all happens;
* otherwise: in non-project mode the old tree/table output is cleared,
  the BusyFlag is set, and the command is submitted to the executor. -/
def execLuna (hasP : Bool) (s : ScopeState) : ScopeState × Bool :=
  if hasP = false then
    ({ s with errorDialogs := s.errorDialogs + 1 }, false)
  else if s.busy = true then
    (s, false)
  else
    let s1 := if s.projectMode = true then s else { s with treeIndex := none }
    ({ s1 with busy := true, evalsStarted := s.evalsStarted + 1 }, true)

/-- The completion outcome queued back to the interactive thread by the
`done` future-callback: engine failure or callback failure queue the
error slot with the formatted kind+message; otherwise the ok slot. -/
def doneOutcome (re : RecordEval) : Delivery :=
  match re.eval with
  | Except.error e => Delivery.err (fmtErr e)
  | Except.ok _ =>
      match re.cbRaises with
      | some e => Delivery.err (fmtErr e)
      | none => Delivery.ok

/-- One merge step of `_accumulate_project_results`: for one
`(Command, Strata)` row, fetch its table and either concatenate onto the
existing entry of the aggregate dict or insert as the first entry. -/
def accRow (tableOf : RKey → STable) (m : List (String × STable))
    (row : RKey) : List (String × STable) :=
  let key := joinKey row
  let df := tableOf row
  match alist_get m key with
  | some old => alist_set m key (concatTables old df)
  | none => alist_set m key df

/-- `_accumulate_project_results(tbls)`: `None` returns immediately;
otherwise append the `Command`/`Strata` frame of this record to
`self._proj_tbls` and merge every row's table into `self._proj_results`.
(The trailing best-effort `REPORT show-all` engine directive is external
state, not modelled.) -/
def accumulateProjectResults (tableOf : RKey → STable)
    (tbls : Option (List RKey)) (s : ScopeState) : ScopeState :=
  match tbls with
  | none => s
  | some rows =>
      { s with projTbls := s.projTbls ++ [rows]
               projResults := rows.foldl (accRow tableOf) s.projResults }

/-- `_render_tables(tbls)` restricted to the state the claims observe:
when a listing is present, the strata tree is rebuilt from it and
`self.results` is rebuilt as a fresh dict mapping each joined key to its
pulled table.  (Annotation/metric widget refreshes are presentation.) -/
def renderTables (tableOf : RKey → STable) (tbls : Option (List RKey))
    (s : ScopeState) : ScopeState :=
  match tbls with
  | none => s
  | some rows =>
      { s with treeIndex := some rows
               results := rows.foldl
                 (fun m row => alist_set m (joinKey row) (tableOf row)) [] }

/-- The `_eval_done_ok` slot.  The try-block pulls the tables and either
accumulates (project mode) or renders (single mode); if pulling raises,
the exception escapes the slot (there is no except-clause).  The
finally-block always runs: BusyFlag cleared, controls re-enabled, and in
project mode with a nonempty record list the index is advanced (the next
record is then driven by `_proj_eval_next`, modelled in `projLoop`). -/
def evalDoneOk (re : RecordEval) (s : ScopeState) : ScopeState :=
  let body :=
    if re.pullRaises = true then
      { s with uncaughtSlotExc := s.uncaughtSlotExc + 1 }
    else if s.projectMode = true then
      accumulateProjectResults re.table re.strata s
    else
      renderTables re.table re.strata s
  let fin := { body with busy := false
                         deliveries := body.deliveries ++ [Delivery.ok] }
  if fin.projectMode = true ∧ 0 < fin.projN then
    { fin with projI := fin.projI + 1 }
  else fin

/-- The `_eval_done_err` slot: show the captured error dialog, then the
same finally-block unlock-and-advance sequence as the success slot. -/
def evalDoneErr (tb : String) (s : ScopeState) : ScopeState :=
  let body := { s with errorDialogs := s.errorDialogs + 1 }
  let fin := { body with busy := false
                         deliveries := body.deliveries ++ [Delivery.err tb] }
  if fin.projectMode = true ∧ 0 < fin.projN then
    { fin with projI := fin.projI + 1 }
  else fin

/-- Processing of the one queued completion notification for a Job. -/
def processDelivery (re : RecordEval) (s : ScopeState) : ScopeState :=
  match doneOutcome re with
  | Delivery.ok => evalDoneOk re s
  | Delivery.err tb => evalDoneErr tb s

/-- `_finish_project_eval`: bail if no record ever contributed a frame;
otherwise concatenate the per-record frames in record order, drop
duplicate `(Command, Strata)` rows keeping the first occurrence, publish
the aggregate dict as `self.results`, and render the combined tree. -/
def finishProjectEval (s : ScopeState) : ScopeState :=
  if s.projTbls = [] then s
  else
    let all_tbls := drop_duplicates s.projTbls.flatten
    { s with results := s.projResults, treeIndex := some all_tbls }

/-- The project-mode driving loop: `_proj_eval_next` plus, for each record,
the completed background job and its queued completion slot.  `recs` holds
the engine behaviour of the records still to be evaluated (record
selection via `_attach_inst` is presentation).  When the index has reached
the record count the run finalizes; otherwise the next record is submitted
through `_exec_luna` and its completion slot advances the index, after
which the loop continues with the remaining records. -/
def projLoop (hasP : Bool) (recs : List RecordEval) (s : ScopeState) :
    ScopeState :=
  match recs with
  | [] => if s.projN ≤ s.projI then finishProjectEval s else s
  | re :: rest =>
      if s.projN ≤ s.projI then finishProjectEval s
      else
        let p := execLuna hasP s
        if p.2 = true then projLoop hasP rest (processDelivery re p.1)
        else p.1

/-- `_proj_eval`: enter project mode, clear the output views, reset the
accumulators and the index, then drive the loop from record 0. -/
def projEval (hasP : Bool) (recs : List RecordEval) (s : ScopeState) :
    ScopeState :=
  let s0 := { s with projectMode := true
                     projN := recs.length, projI := 0
                     projTbls := [], projResults := []
                     treeIndex := none }
  projLoop hasP recs s0

/-- `_exec_single_luna` followed by the Job's completion: leave project
mode, submit through `_exec_luna`, and process the queued completion slot
of the submitted Job (if one was submitted). -/
def runSingle (hasP : Bool) (re : RecordEval) (s : ScopeState) :
    ScopeState :=
  let s0 := { s with projectMode := false }
  let p := execLuna hasP s0
  if p.2 = true then processDelivery re p.1 else p.1

/-- `_update_table(cmd, stratum)` up to the data actually displayed: fetch
the stored table under the joined key from `self.results` (KeyError if
absent, modelled `none`), and in non-project mode drop its `ID` column
(KeyError if the table has no such column).  The optional transpose and
the Qt model/proxy wiring that follow are presentation. -/
def updateTableData (projectMode : Bool) (results : List (String × STable))
    (cmd stratum : String) : Option STable :=
  match alist_get results (cmd ++ "_" ++ stratum) with
  | none => none
  | some tbl =>
      if projectMode = true then some tbl else dropColumn "ID" tbl

/-- The key frame a record contributes to `self._proj_tbls`: present
exactly when the evaluation completed successfully (no engine failure, no
callback failure, no failure while pulling tables) and the engine returned
a (possibly empty) strata listing. -/
def frameOf (re : RecordEval) : Option (List RKey) :=
  match re.eval, re.cbRaises, re.pullRaises with
  | Except.ok _, none, false => re.strata
  | _, _, _ => none

/-- The contribution of one record to the aggregate map. -/
def recAccum (m : List (String × STable)) (re : RecordEval) :
    List (String × STable) :=
  match frameOf re with
  | some rows => rows.foldl (accRow re.table) m
  | none => m

/-- Number of error dialogs one record's completion produces. -/
def dialogCountOf (re : RecordEval) : Nat :=
  match doneOutcome re with
  | Delivery.err _ => 1
  | Delivery.ok => 0

/-- Number of exceptions escaping the interactive slot for one record. -/
def escapeCountOf (re : RecordEval) : Nat :=
  match doneOutcome re with
  | Delivery.ok => if re.pullRaises = true then 1 else 0
  | Delivery.err _ => 0

/-- One full submit-run-complete round for one record inside a project
run. -/
def stepRec (re : RecordEval) (s : ScopeState) : ScopeState :=
  processDelivery re (execLuna true s).1

/-- All `(command, stratum)` keys contributed to the aggregation during a
run over `recs`, in record order. -/
def allKeys (recs : List RecordEval) : List RKey :=
  (recs.filterMap frameOf).flatten

/-- The aggregate-map entries a run over `recs` is expected to produce when
no two contributions share a dictionary key: one entry per contributed key,
in record order, holding that record's pulled table. -/
def projEntries (recs : List RecordEval) : List (String × STable) :=
  (recs.filterMap (fun re => (frameOf re).map
    (fun rows => rows.map (fun r => (joinKey r, re.table r))))).flatten

/-- A small sample table carrying an ID column. -/
def tblW : STable :=
  { cols := ["ID", "V"], rows := [[("ID", "r1"), ("V", "1")]] }

/-- A second sample table. -/
def tblW2 : STable :=
  { cols := ["ID", "V"]
    rows := [[("ID", "r2"), ("V", "2")], [("ID", "r2"), ("V", "3")]] }

/-- A record evaluation that completes cleanly with the given listing. -/
def mkOkRec (frame : List RKey) (tableOf : RKey → STable) : RecordEval :=
  { eval := Except.ok "", cbRaises := none, pullRaises := false
    strata := some frame, table := tableOf }

/-- A record whose engine call raises the given error. -/
def mkErrRec (e : LunaErr) : RecordEval :=
  { eval := Except.error e, cbRaises := none, pullRaises := false
    strata := none, table := fun _ => { cols := [], rows := [] } }

/-- A sample engine failure. -/
def errW : LunaErr := { kind := "RuntimeError", msg := "luna failed" }

/-- A clean evaluation returning no table listing at all (`strata()` is
`None`, as for display-only commands). -/
def reNoneW : RecordEval :=
  { eval := Except.ok "", cbRaises := none, pullRaises := false
    strata := none, table := fun _ => { cols := [], rows := [] } }

/-- A successful engine round whose table pull then raises on the
interactive thread inside `_eval_done_ok`. -/
def rePullW : RecordEval :=
  { eval := Except.ok "done", cbRaises := none, pullRaises := true
    strata := some [("PSD", "CH")], table := fun _ => tblW }

/-- Engine call succeeded but the `done` future-callback itself raises. -/
def reCbW : RecordEval :=
  { eval := Except.ok "done"
    cbRaises := some { kind := "RuntimeError", msg := "cb" }
    pullRaises := false, strata := some [("PSD", "CH")]
    table := fun _ => tblW }

/-- Two records with disjoint `(command, stratum)` pairs whose joined
dictionary keys collide: both pairs join to `"A_B_C"`. -/
def reColl1 : RecordEval := mkOkRec [("A_B", "C")] (fun _ => tblW)

/-- Second half of the joined-key collision pair. -/
def reColl2 : RecordEval := mkOkRec [("A", "B_C")] (fun _ => tblW2)

theorem alist_get_eq_none (m : List (String × STable)) (k : String) :
    alist_get m k = none ↔ ¬ k ∈ m.map Prod.fst := by
  induction m with
  | nil => simp [alist_get]
  | cons kv rest ih =>
      obtain ⟨k2, v⟩ := kv
      by_cases h : k2 = k
      · subst h
        simp [alist_get]
      · rw [alist_get, if_neg h, ih]
        simp only [List.map_cons, List.mem_cons, not_or]
        constructor
        · intro hnot
          exact ⟨fun hh => h hh.symm, hnot⟩
        · intro hnot
          exact hnot.2

theorem alist_set_of_not_mem (m : List (String × STable)) (k : String)
    (v : STable) (h : ¬ k ∈ m.map Prod.fst) :
    alist_set m k v = m ++ [(k, v)] := by
  induction m with
  | nil => simp [alist_set]
  | cons kv rest ih =>
      obtain ⟨k2, v2⟩ := kv
      simp only [List.map_cons, List.mem_cons] at h
      push_neg at h
      simp [alist_set, Ne.symm h.1, ih h.2]

theorem alist_get_set_self (m : List (String × STable)) (k : String)
    (v : STable) : alist_get (alist_set m k v) k = some v := by
  induction m with
  | nil => simp [alist_set, alist_get]
  | cons kv rest ih =>
      obtain ⟨k2, v2⟩ := kv
      by_cases h : k2 = k <;> simp [alist_set, alist_get, h, ih]

theorem alist_get_set_ne (m : List (String × STable)) (k k2 : String)
    (v : STable) (h : ¬ k2 = k) :
    alist_get (alist_set m k v) k2 = alist_get m k2 := by
  have h2 : ¬ k = k2 := fun hh => h hh.symm
  induction m with
  | nil => simp [alist_set, alist_get, h2]
  | cons kv rest ih =>
      obtain ⟨k3, v3⟩ := kv
      by_cases h3 : k3 = k
      · subst h3
        simp [alist_set, alist_get, h2]
      · by_cases h4 : k3 = k2 <;> simp [alist_set, alist_get, h3, h4, ih, h]

theorem alist_get_append_left (m m2 : List (String × STable)) (k : String)
    (h : alist_get m k = none) :
    alist_get (m ++ m2) k = alist_get m2 k := by
  induction m with
  | nil => simp
  | cons kv rest ih =>
      obtain ⟨k2, v⟩ := kv
      by_cases h2 : k2 = k
      · simp [alist_get, h2] at h
      · simp only [alist_get, h2, if_false] at h
        simp [alist_get, h2, ih h]

/-- Keys of the map after a write: unchanged when the key is present,
the new key appended at the end otherwise. -/
theorem alist_set_map_fst (m : List (String × STable)) (k : String)
    (v : STable) :
    (alist_set m k v).map Prod.fst =
      if k ∈ m.map Prod.fst then m.map Prod.fst
      else m.map Prod.fst ++ [k] := by
  induction m with
  | nil => simp [alist_set]
  | cons kv rest ih =>
      obtain ⟨k2, v2⟩ := kv
      by_cases h : k2 = k
      · subst h
        simp [alist_set]
      · by_cases h2 : k ∈ rest.map Prod.fst <;>
          simp [alist_set, h, ih, h2, Ne.symm h]

theorem ddAux_nil (seen : List RKey) : ddAux [] seen = [] := rfl

theorem ddAux_cons (k : RKey) (ks seen : List RKey) :
    ddAux (k :: ks) seen =
      if k ∈ seen then ddAux ks seen else k :: ddAux ks (k :: seen) := rfl

theorem mem_ddAux (l : List RKey) (seen : List RKey) (x : RKey) :
    x ∈ ddAux l seen ↔ x ∈ l ∧ ¬ x ∈ seen := by
  induction l generalizing seen with
  | nil => simp [ddAux_nil]
  | cons k ks ih =>
      by_cases h : k ∈ seen
      · simp only [ddAux_cons, if_pos h, ih, List.mem_cons]
        constructor
        · rintro ⟨hx, hs⟩; exact ⟨Or.inr hx, hs⟩
        · rintro ⟨hx | hx, hs⟩
          · subst hx; exact absurd h hs
          · exact ⟨hx, hs⟩
      · simp only [ddAux_cons, if_neg h, List.mem_cons, ih]
        constructor
        · rintro (hx | ⟨hx, hs⟩)
          · subst hx; exact ⟨Or.inl rfl, h⟩
          · push_neg at hs
            exact ⟨Or.inr hx, hs.2⟩
        · rintro ⟨hx | hx, hs⟩
          · subst hx; exact Or.inl rfl
          · by_cases hxk : x = k
            · subst hxk; exact Or.inl rfl
            · refine Or.inr ⟨hx, fun hmem => ?_⟩
              rcases hmem with h1 | h1
              · exact hxk h1
              · exact hs h1

theorem nodup_ddAux (l : List RKey) (seen : List RKey) :
    (ddAux l seen).Nodup := by
  induction l generalizing seen with
  | nil => simp [ddAux_nil]
  | cons k ks ih =>
      by_cases h : k ∈ seen
      · simpa [ddAux_cons, h] using ih seen
      · simp only [ddAux_cons, if_neg h, List.nodup_cons]
        refine ⟨fun hmem => ?_, ih (k :: seen)⟩
        rw [mem_ddAux] at hmem
        exact hmem.2 (List.mem_cons_self k seen)

/-- The traversal only consults the seen set through membership of the
elements actually traversed. -/
theorem ddAux_congr (l : List RKey) (s1 s2 : List RKey)
    (h : ∀ x, x ∈ l → (x ∈ s1 ↔ x ∈ s2)) : ddAux l s1 = ddAux l s2 := by
  induction l generalizing s1 s2 with
  | nil => simp [ddAux_nil]
  | cons k ks ih =>
      have hk2 := h k (List.mem_cons_self k ks)
      by_cases hk : k ∈ s1
      · rw [ddAux_cons, ddAux_cons, if_pos hk, if_pos (hk2.mp hk)]
        exact ih s1 s2 (fun x hx => h x (List.mem_cons_of_mem k hx))
      · rw [ddAux_cons, ddAux_cons, if_neg hk,
          if_neg (fun hmem => hk (hk2.mpr hmem))]
        refine congrArg (k :: ·) (ih _ _ (fun x hx => ?_))
        simp [List.mem_cons, h x (List.mem_cons_of_mem k hx)]

/-- Splitting the traversal: the second part of the list contributes only
rows not occurring in the first part — the first occurrence of every
duplicated row wins. -/
theorem ddAux_append (l1 l2 : List RKey) (seen : List RKey) :
    ddAux (l1 ++ l2) seen = ddAux l1 seen ++ ddAux l2 (l1 ++ seen) := by
  induction l1 generalizing seen with
  | nil => simp [ddAux_nil]
  | cons k ks ih =>
      by_cases h : k ∈ seen
      · simp only [List.cons_append, ddAux_cons, if_pos h, ih]
        refine congrArg (fun t => ddAux ks seen ++ t)
          (ddAux_congr l2 (ks ++ seen) (k :: ks ++ seen) (fun x _ => ?_))
        simp only [List.mem_append, List.cons_append, List.mem_cons]
        constructor
        · rintro (hx | hx)
          · exact Or.inr (Or.inl hx)
          · exact Or.inr (Or.inr hx)
        · rintro (hx | hx | hx)
          · subst hx; exact Or.inr h
          · exact Or.inl hx
          · exact Or.inr hx
      · simp only [List.cons_append, ddAux_cons, if_neg h, ih]
        refine congrArg (fun t => k :: (ddAux ks (k :: seen) ++ t))
          (ddAux_congr l2 (ks ++ k :: seen) ((k :: ks) ++ seen)
            (fun x _ => ?_))
        simp only [List.mem_append, List.cons_append, List.mem_cons]
        constructor
        · rintro (hx | hx | hx)
          · exact Or.inr (Or.inl hx)
          · exact Or.inl hx
          · exact Or.inr (Or.inr hx)
        · rintro (hx | hx | hx)
          · exact Or.inr (Or.inl hx)
          · exact Or.inl hx
          · exact Or.inr (Or.inr hx)

theorem mem_drop_duplicates (l : List RKey) (x : RKey) :
    x ∈ drop_duplicates l ↔ x ∈ l := by
  simp [drop_duplicates, mem_ddAux]

theorem nodup_drop_duplicates (l : List RKey) :
    (drop_duplicates l).Nodup := nodup_ddAux l []

theorem drop_duplicates_append (l1 l2 : List RKey) :
    drop_duplicates (l1 ++ l2) = drop_duplicates l1 ++ ddAux l2 l1 := by
  rw [drop_duplicates, ddAux_append, drop_duplicates]
  exact congrArg _ (ddAux_congr _ _ _ (fun x _ => by simp))

theorem drop_duplicates_of_nodup (l : List RKey) (h : l.Nodup) :
    drop_duplicates l = l := by
  rw [drop_duplicates]
  induction l with
  | nil => rfl
  | cons k ks ih =>
      simp only [List.nodup_cons] at h
      rw [ddAux_cons, if_neg (by simp)]
      refine congrArg _ ?_
      rw [ddAux_congr ks [k] ([] : List RKey)
        (fun x hx => by
          simp only [List.mem_singleton, List.not_mem_nil, iff_false]
          exact fun hxk => h.1 (hxk ▸ hx))]
      exact ih h.2

/-- A refused submission: with the BusyFlag set, `_exec_luna` returns
before touching anything. -/
theorem execLuna_busy (s : ScopeState) (h : s.busy = true) :
    execLuna true s = (s, false) := by
  simp [execLuna, h]

theorem execLuna_submit_proj (s : ScopeState) (hb : s.busy = false)
    (hpm : s.projectMode = true) :
    execLuna true s =
      ({ s with busy := true, evalsStarted := s.evalsStarted + 1 }, true) := by
  simp [execLuna, hb, hpm]

/-- Net effect on the controller state of one record's round in a project
run: the BusyFlag goes up and comes back down, the index advances by one,
exactly one completion is delivered, and the accumulators receive exactly
this record's contribution (nothing on engine failure, callback failure,
pull failure, or a missing listing). -/
theorem stepRec_spec (re : RecordEval) (s : ScopeState)
    (hb : s.busy = false) (hpm : s.projectMode = true)
    (hn : 0 < s.projN) :
    stepRec re s =
      { s with
        busy := false
        projI := s.projI + 1
        projTbls := s.projTbls ++ (frameOf re).toList
        projResults := recAccum s.projResults re
        deliveries := s.deliveries ++ [doneOutcome re]
        errorDialogs := s.errorDialogs + dialogCountOf re
        uncaughtSlotExc := s.uncaughtSlotExc + escapeCountOf re
        evalsStarted := s.evalsStarted + 1 } := by
  obtain ⟨ev, cb, pull, strata, tbl⟩ := re
  rw [stepRec, execLuna_submit_proj s hb hpm]
  cases ev with
  | error e =>
      simp [processDelivery, doneOutcome, evalDoneErr, frameOf, recAccum,
        dialogCountOf, escapeCountOf, hpm, hn]
  | ok txt =>
      cases cb with
      | some e =>
          simp [processDelivery, doneOutcome, evalDoneErr, frameOf, recAccum,
            dialogCountOf, escapeCountOf, hpm, hn]
      | none =>
          cases pull with
          | true =>
              simp [processDelivery, doneOutcome, evalDoneOk, frameOf,
                recAccum, dialogCountOf, escapeCountOf, hpm, hn]
          | false =>
              cases strata with
              | none =>
                  simp [processDelivery, doneOutcome, evalDoneOk, frameOf,
                    recAccum, dialogCountOf, escapeCountOf,
                    accumulateProjectResults, hpm, hn]
              | some rows =>
                  simp [processDelivery, doneOutcome, evalDoneOk, frameOf,
                    recAccum, dialogCountOf, escapeCountOf,
                    accumulateProjectResults, hpm, hn]

/-- The project loop is the sequential fold of the per-record rounds,
finalized by `_finish_project_eval`, provided the record list matches the
distance from the current index to the record count. -/
theorem projLoop_eq_fold (recs : List RecordEval) :
    ∀ s : ScopeState, s.projectMode = true → s.busy = false →
      s.projN = s.projI + recs.length →
      projLoop true recs s =
        finishProjectEval (recs.foldl (fun t re => stepRec re t) s) := by
  induction recs with
  | nil =>
      intro s hpm hb hn
      simp only [List.length_nil, Nat.add_zero] at hn
      simp [projLoop, hn, List.foldl_nil]
  | cons re rest ih =>
      intro s hpm hb hn
      have hlt : ¬ s.projN ≤ s.projI := by
        simp only [List.length_cons] at hn
        omega
      have hn0 : 0 < s.projN := by
        simp only [List.length_cons] at hn
        omega
      rw [projLoop, if_neg hlt]
      rw [execLuna_submit_proj s hb hpm]
      simp only [List.foldl_cons]
      have hstep : processDelivery re
          { s with busy := true, evalsStarted := s.evalsStarted + 1 } =
          stepRec re s := by
        rw [stepRec, execLuna_submit_proj s hb hpm]
      rw [if_pos trivial, hstep, ih (stepRec re s) ?_ ?_ ?_]
      · rw [stepRec_spec re s hb hpm hn0]
        exact hpm
      · rw [stepRec_spec re s hb hpm hn0]
      · rw [stepRec_spec re s hb hpm hn0]
        show s.projN = s.projI + 1 + rest.length
        simp only [List.length_cons] at hn
        omega

/-- Accumulated effect of a whole project loop on the controller state:
index advanced once per record, one delivery per record, frames and
aggregate map collecting exactly the per-record contributions in record
order. -/
theorem foldRec_spec (recs : List RecordEval) :
    ∀ s : ScopeState, s.projectMode = true → s.busy = false →
      recs.length ≤ s.projN →
      recs.foldl (fun t re => stepRec re t) s =
        { s with
          busy := false
          projI := s.projI + recs.length
          projTbls := s.projTbls ++ recs.filterMap frameOf
          projResults := recs.foldl recAccum s.projResults
          deliveries := s.deliveries ++ recs.map doneOutcome
          errorDialogs := s.errorDialogs + (recs.map dialogCountOf).sum
          uncaughtSlotExc :=
            s.uncaughtSlotExc + (recs.map escapeCountOf).sum
          evalsStarted := s.evalsStarted + recs.length } := by
  induction recs with
  | nil =>
      intro s hpm hb hn
      simp only [List.foldl_nil, List.length_nil, Nat.add_zero,
        List.filterMap_nil, List.append_nil, List.map_nil, List.sum_nil]
      cases s
      simp_all
  | cons re rest ih =>
      intro s hpm hb hn
      have hn0 : 0 < s.projN := by
        simp only [List.length_cons] at hn
        omega
      simp only [List.foldl_cons]
      have h1 : (stepRec re s).projectMode = true := by
        rw [stepRec_spec re s hb hpm hn0]; exact hpm
      have h2 : (stepRec re s).busy = false := by
        rw [stepRec_spec re s hb hpm hn0]
      have h3 : rest.length ≤ (stepRec re s).projN := by
        rw [stepRec_spec re s hb hpm hn0]
        show rest.length ≤ s.projN
        simp only [List.length_cons] at hn
        omega
      rw [ih (stepRec re s) h1 h2 h3, stepRec_spec re s hb hpm hn0]
      cases hf : frameOf re <;>
        simp [hf, List.append_assoc, Nat.add_assoc, Nat.add_comm 1,
          Nat.add_left_comm]

/-- Master characterization of a whole project run (`_proj_eval` over the
records of the sample list): it ends in `_finish_project_eval` applied to
the state collecting every record's contribution in order. -/
theorem projEval_run (recs : List RecordEval) (s : ScopeState)
    (hb : s.busy = false) :
    projEval true recs s =
      finishProjectEval
        { s with
          projectMode := true
          busy := false
          projI := recs.length
          projN := recs.length
          projTbls := recs.filterMap frameOf
          projResults := recs.foldl recAccum []
          treeIndex := none
          deliveries := s.deliveries ++ recs.map doneOutcome
          errorDialogs := s.errorDialogs + (recs.map dialogCountOf).sum
          uncaughtSlotExc :=
            s.uncaughtSlotExc + (recs.map escapeCountOf).sum
          evalsStarted := s.evalsStarted + recs.length } := by
  rw [projEval]
  rw [projLoop_eq_fold recs
    { s with projectMode := true, projN := recs.length, projI := 0
             projTbls := [], projResults := [], treeIndex := none }
    rfl hb (by simp)]
  rw [foldRec_spec recs
    { s with projectMode := true, projN := recs.length, projI := 0
             projTbls := [], projResults := [], treeIndex := none }
    rfl hb (by simp)]
  simp

/-- Accumulating a frame of rows whose dictionary keys are fresh and
mutually distinct appends one entry per row, in order. -/
theorem foldAccRow_fresh (tableOf : RKey → STable) (rows : List RKey) :
    ∀ m : List (String × STable),
      (rows.map joinKey).Nodup →
      (∀ r ∈ rows, ¬ joinKey r ∈ m.map Prod.fst) →
      rows.foldl (accRow tableOf) m =
        m ++ rows.map (fun r => (joinKey r, tableOf r)) := by
  induction rows with
  | nil => intro m _ _; simp
  | cons r rs ih =>
      intro m hnd hfresh
      simp only [List.foldl_cons]
      have hget : alist_get m (joinKey r) = none :=
        (alist_get_eq_none m (joinKey r)).mpr
          (hfresh r (List.mem_cons_self r rs))
      have hset : accRow tableOf m r = m ++ [(joinKey r, tableOf r)] := by
        simp only [accRow, hget]
        exact alist_set_of_not_mem m (joinKey r) (tableOf r)
          (hfresh r (List.mem_cons_self r rs))
      simp only [List.map_cons, List.nodup_cons] at hnd
      rw [hset, ih (m ++ [(joinKey r, tableOf r)]) hnd.2 ?_]
      · simp
      · intro r2 hr2
        simp only [List.map_append, List.mem_append, List.map_cons,
          List.map_nil, List.mem_singleton, not_or]
        constructor
        · exact hfresh r2 (List.mem_cons_of_mem r hr2)
        · intro heq
          exact hnd.1 (heq ▸ List.mem_map_of_mem joinKey hr2)

/-- Accumulating records whose contributed dictionary keys are globally
distinct and fresh appends exactly one entry per contributed key. -/
theorem foldRecAccum_fresh (recs : List RecordEval) :
    ∀ m : List (String × STable),
      ((allKeys recs).map joinKey).Nodup →
      (∀ k ∈ allKeys recs, ¬ joinKey k ∈ m.map Prod.fst) →
      recs.foldl recAccum m = m ++ projEntries recs := by
  induction recs with
  | nil => intro m _ _; simp [projEntries]
  | cons re rest ih =>
      intro m hnd hfresh
      simp only [List.foldl_cons]
      cases hf : frameOf re with
      | none =>
          have hkeys : allKeys (re :: rest) = allKeys rest := by
            simp [allKeys, List.filterMap_cons, hf]
          rw [hkeys] at hnd hfresh
          have hacc : recAccum m re = m := by
            simp [recAccum, hf]
          rw [hacc, ih m hnd hfresh]
          simp [projEntries, List.filterMap_cons, hf]
      | some rows =>
          have hkeys : allKeys (re :: rest) = rows ++ allKeys rest := by
            simp [allKeys, List.filterMap_cons, hf]
          rw [hkeys] at hnd hfresh
          simp only [List.map_append] at hnd
          have hacc : recAccum m re =
              m ++ rows.map (fun r => (joinKey r, re.table r)) := by
            simp only [recAccum, hf]
            exact foldAccRow_fresh re.table rows m hnd.of_append_left
              (fun r hr => hfresh r (List.mem_append_left _ hr))
          rw [hacc, ih (m ++ rows.map (fun r => (joinKey r, re.table r)))
            hnd.of_append_right ?_]
          · simp [projEntries, List.filterMap_cons, hf]
          · intro k hk
            simp only [List.map_append, List.mem_append, List.map_map,
              not_or]
            constructor
            · exact hfresh k (List.mem_append_right _ hk)
            · intro hmem
              have hdisj := List.disjoint_of_nodup_append hnd
              refine hdisj ?_ (List.mem_map_of_mem joinKey hk)
              simpa using hmem

/-- Submission in single-record mode: the old tree output is cleared, the
BusyFlag set, the job handed to the lane. -/
theorem execLuna_submit_single (s : ScopeState) (hb : s.busy = false) :
    execLuna true { s with projectMode := false } =
      ({ s with projectMode := false, treeIndex := none, busy := true
                evalsStarted := s.evalsStarted + 1 }, true) := by
  simp [execLuna, hb]

/-- Whatever the outcome, processing the one queued completion slot clears
the BusyFlag and appends exactly one delivery to the log. -/
theorem processDelivery_busy_deliveries (re : RecordEval) (s : ScopeState) :
    (processDelivery re s).busy = false ∧
    (processDelivery re s).deliveries = s.deliveries ++ [doneOutcome re] := by
  obtain ⟨ev, cb, pull, strata, tbl⟩ := re
  cases ev <;> cases cb <;> cases pull <;> cases strata <;>
    (simp only [processDelivery, doneOutcome, evalDoneOk, evalDoneErr,
        accumulateProjectResults, renderTables]
     split_ifs <;> simp)

/-- `_finish_project_eval` only publishes: every accumulator and counter is
left untouched. -/
theorem finish_fields (s : ScopeState) :
    (finishProjectEval s).busy = s.busy ∧
    (finishProjectEval s).projectMode = s.projectMode ∧
    (finishProjectEval s).deliveries = s.deliveries ∧
    (finishProjectEval s).projI = s.projI ∧
    (finishProjectEval s).projN = s.projN ∧
    (finishProjectEval s).projTbls = s.projTbls ∧
    (finishProjectEval s).projResults = s.projResults ∧
    (finishProjectEval s).errorDialogs = s.errorDialogs ∧
    (finishProjectEval s).uncaughtSlotExc = s.uncaughtSlotExc ∧
    (finishProjectEval s).evalsStarted = s.evalsStarted := by
  rw [finishProjectEval]
  split_ifs <;> simp

/-- Finalization is idempotent. -/
theorem finish_idem (s : ScopeState) :
    finishProjectEval (finishProjectEval s) = finishProjectEval s := by
  by_cases h : s.projTbls = []
  · have h1 : finishProjectEval s = s := by rw [finishProjectEval, if_pos h]
    rw [h1, h1]
  · have h1 : finishProjectEval s =
        { s with results := s.projResults
                 treeIndex := some (drop_duplicates s.projTbls.flatten) } := by
      rw [finishProjectEval, if_neg h]
    rw [h1, finishProjectEval, if_neg (by simpa using h)]

/-- A loop entered with the index already at the record count goes
straight to finalization, whatever records are offered. -/
theorem projLoop_finished (recs : List RecordEval) (s : ScopeState)
    (h : s.projN ≤ s.projI) :
    projLoop true recs s = finishProjectEval s := by
  cases recs <;> simp [projLoop, h]

theorem projEntries_cons (re : RecordEval) (rest : List RecordEval) :
    projEntries (re :: rest) =
      (match frameOf re with
       | some rows => rows.map (fun r => (joinKey r, re.table r))
       | none => []) ++ projEntries rest := by
  cases hf : frameOf re <;> simp [projEntries, List.filterMap_cons, hf]

theorem allKeys_cons (re : RecordEval) (rest : List RecordEval) :
    allKeys (re :: rest) =
      (match frameOf re with
       | some rows => rows
       | none => []) ++ allKeys rest := by
  cases hf : frameOf re <;> simp [allKeys, List.filterMap_cons, hf]

/-- The dictionary keys of the expected aggregate entries are the joined
contributed keys, in order. -/
theorem projEntries_map_fst (recs : List RecordEval) :
    (projEntries recs).map Prod.fst = (allKeys recs).map joinKey := by
  induction recs with
  | nil => simp [projEntries, allKeys]
  | cons re rest ih =>
      rw [projEntries_cons, allKeys_cons]
      cases hf : frameOf re <;>
        simp [List.map_append, List.map_map, ih, Function.comp]

/-- C5. For every sequence of submissions, at most one Job is in flight at
a time: `_exec_luna` invoked while the BusyFlag is set returns the state
unchanged — BusyFlag untouched, no Job created or queued (`submit` not
reached), no error dialog raised — and when the flag is clear a submission
sets the flag before handing work to the lane. -/
theorem c5_busy_submission_refused (s : ScopeState) (h : s.busy = true) :
    execLuna true s = (s, false) ∧
    (execLuna true s).1.busy = s.busy ∧
    (execLuna true s).1.evalsStarted = s.evalsStarted ∧
    (execLuna true s).1.errorDialogs = s.errorDialogs ∧
    (∀ s2 : ScopeState, s2.busy = false →
      (execLuna true s2).2 = true ∧ (execLuna true s2).1.busy = true) := by
  refine ⟨by simp [execLuna, h], by simp [execLuna, h],
    by simp [execLuna, h], by simp [execLuna, h], ?_⟩
  intro s2 h2
  by_cases pm : s2.projectMode = true <;> simp [execLuna, h2, pm]

/-- C5 witness: a refused submission at a concrete busy state. -/
theorem c5_busy_submission_refused_witness :
    execLuna true { initState with busy := true } =
      ({ initState with busy := true }, false) :=
  (c5_busy_submission_refused { initState with busy := true } rfl).1

/-- C2. Every submitted Job yields exactly one completion processed on the
interactive thread (one delivery appended, in single-record mode and once
per record in project mode), the BusyFlag is false after that processing,
and an engine failure is delivered as the structured kind-plus-message
failure outcome captured in `_last_tb`. -/
theorem c2_exactly_one_outcome (re : RecordEval) (s : ScopeState)
    (hb : s.busy = false) :
    (runSingle true re s).deliveries = s.deliveries ++ [doneOutcome re] ∧
    (runSingle true re s).busy = false ∧
    (∀ e, re.eval = Except.error e →
      doneOutcome re = Delivery.err (e.kind ++ ": " ++ e.msg)) ∧
    (∀ recs : List RecordEval,
      (projEval true recs s).deliveries =
          s.deliveries ++ recs.map doneOutcome ∧
      (projEval true recs s).busy = false) := by
  have hrs : runSingle true re s =
      processDelivery re
        { s with projectMode := false, treeIndex := none, busy := true
                 evalsStarted := s.evalsStarted + 1 } := by
    simp only [runSingle]
    rw [execLuna_submit_single s hb]
    simp
  have hpd := processDelivery_busy_deliveries re
    { s with projectMode := false, treeIndex := none, busy := true
             evalsStarted := s.evalsStarted + 1 }
  refine ⟨?_, ?_, ?_, ?_⟩
  · rw [hrs]; exact hpd.2
  · rw [hrs]; exact hpd.1
  · intro e he
    simp [doneOutcome, he, fmtErr]
  · intro recs
    constructor
    · rw [projEval_run recs s hb, (finish_fields _).2.2.1]
    · rw [projEval_run recs s hb, (finish_fields _).1]

/-- C2 witness: a concrete failing Job delivers exactly one structured
failure outcome and leaves the BusyFlag clear. -/
theorem c2_exactly_one_outcome_witness :
    (runSingle true (mkErrRec errW) initState).deliveries =
        [Delivery.err (fmtErr errW)] ∧
    (runSingle true (mkErrRec errW) initState).busy = false := by
  have h := c2_exactly_one_outcome (mkErrRec errW) initState rfl
  refine ⟨?_, h.2.1⟩
  rw [h.1, h.2.2.1 errW rfl]
  rfl

/-- C3 counterexample.  A success outcome whose table pull raises on the
interactive thread (`rePullW`): the processed deliveries are exactly the
one ok-slot invocation, no error dialog is shown and no failure outcome is
redelivered anywhere; instead the exception escapes the slot uncaught
(counter 1).  This refutes the claim that an error raised while pulling
tables is caught, converted into an EngineFailure-shaped outcome and
redelivered. -/
theorem c3_counterexample :
    (runSingle true rePullW initState).deliveries = [Delivery.ok] ∧
    (runSingle true rePullW initState).errorDialogs = 0 ∧
    (runSingle true rePullW initState).uncaughtSlotExc = 1 := by
  refine ⟨rfl, rfl, rfl⟩

/-- C3 (amended).  An error raised inside the background `done` callback
itself is caught and redelivered as a structured failure outcome (exactly
one terminal notification, BusyFlag cleared); but an error raised while
pulling tables on the interactive thread is not converted or redelivered —
the ok-notification remains the only delivery, no dialog is raised, the
exception escapes the slot, and only the finally-block unlock still runs
(BusyFlag cleared). -/
theorem c3_callback_failure_redelivered (re : RecordEval) (s : ScopeState)
    (txt : String) (hb : s.busy = false)
    (hok : re.eval = Except.ok txt) :
    (∀ e, re.cbRaises = some e →
      (runSingle true re s).deliveries =
          s.deliveries ++ [Delivery.err (fmtErr e)] ∧
      (runSingle true re s).errorDialogs = s.errorDialogs + 1 ∧
      (runSingle true re s).busy = false) ∧
    (re.cbRaises = none → re.pullRaises = true →
      (runSingle true re s).deliveries = s.deliveries ++ [Delivery.ok] ∧
      (runSingle true re s).errorDialogs = s.errorDialogs ∧
      (runSingle true re s).uncaughtSlotExc = s.uncaughtSlotExc + 1 ∧
      (runSingle true re s).busy = false) := by
  have hrs : runSingle true re s =
      processDelivery re
        { s with projectMode := false, treeIndex := none, busy := true
                 evalsStarted := s.evalsStarted + 1 } := by
    simp only [runSingle]
    rw [execLuna_submit_single s hb]
    simp
  constructor
  · intro e hcb
    rw [hrs]
    refine ⟨?_, ?_, ?_⟩ <;>
      simp [processDelivery, doneOutcome, hok, hcb, evalDoneErr]
  · intro hcb hpull
    rw [hrs]
    refine ⟨?_, ?_, ?_, ?_⟩ <;>
      simp [processDelivery, doneOutcome, hok, hcb, evalDoneOk, hpull]

/-- C3 witness: a concrete callback failure is redelivered as exactly one
failure outcome with the dialog shown and the BusyFlag cleared. -/
theorem c3_callback_failure_redelivered_witness :
    (runSingle true reCbW initState).deliveries =
        [Delivery.err (fmtErr { kind := "RuntimeError", msg := "cb" })] ∧
    (runSingle true reCbW initState).errorDialogs = 1 ∧
    (runSingle true reCbW initState).busy = false := by
  have h := (c3_callback_failure_redelivered reCbW initState "done" rfl
    rfl).1 { kind := "RuntimeError", msg := "cb" } rfl
  exact ⟨h.1.trans rfl, h.2.1.trans rfl, h.2.2⟩

/-- C9. Driving `_proj_eval_next` when the project state is already
finished (`index = recordCount`, here any `recordCount <= index`) goes
straight to finalization: the aggregate map, the key-frame list, the index
and the engine-call counter are all untouched (no reset, no corruption, no
new record evaluation), and the call is idempotent. -/
theorem c9_advance_when_finished (recs : List RecordEval) (s : ScopeState)
    (h : s.projN ≤ s.projI) :
    (projLoop true recs s).projResults = s.projResults ∧
    (projLoop true recs s).projTbls = s.projTbls ∧
    (projLoop true recs s).projI = s.projI ∧
    (projLoop true recs s).projN = s.projN ∧
    (projLoop true recs s).evalsStarted = s.evalsStarted ∧
    (projLoop true recs s).deliveries = s.deliveries ∧
    projLoop true recs (projLoop true recs s) = projLoop true recs s := by
  have h1 := projLoop_finished recs s h
  have hf := finish_fields s
  have h2 : (finishProjectEval s).projN ≤ (finishProjectEval s).projI := by
    rw [hf.2.2.2.2.1, hf.2.2.2.1]
    exact h
  refine ⟨?_, ?_, ?_, ?_, ?_, ?_, ?_⟩
  · rw [h1]; exact hf.2.2.2.2.2.2.1
  · rw [h1]; exact hf.2.2.2.2.2.1
  · rw [h1]; exact hf.2.2.2.1
  · rw [h1]; exact hf.2.2.2.2.1
  · rw [h1]; exact hf.2.2.2.2.2.2.2.2.2
  · rw [h1]; exact hf.2.2.1
  · rw [h1, projLoop_finished recs (finishProjectEval s) h2, finish_idem]

/-- C9 witness: a concrete finished project state. -/
theorem c9_advance_when_finished_witness :
    (projLoop true []
        { initState with projectMode := true, projN := 2, projI := 2
                         projTbls := [[("A", "B")]]
                         projResults := [("A_B", tblW)] }).projResults =
      [("A_B", tblW)] ∧
    (projLoop true []
        { initState with projectMode := true, projN := 2, projI := 2
                         projTbls := [[("A", "B")]]
                         projResults := [("A_B", tblW)] }).projI = 2 := by
  have h := c9_advance_when_finished []
    { initState with projectMode := true, projN := 2, projI := 2
                     projTbls := [[("A", "B")]]
                     projResults := [("A_B", tblW)] } (by decide)
  exact ⟨h.1, h.2.2.1⟩

/-- C10. Selecting a stored result table for display: in project mode the
displayed data is the stored (aggregated) table unchanged, ID column
included; in single-record mode the displayed data is the stored table
with its ID column dropped, which requires the stored table to carry an
ID column — `df.drop` raises (modelled `none`) when it does not. -/
theorem c10_id_column_display (stored : List (String × STable))
    (cmd stratum : String) (tbl : STable)
    (hget : alist_get stored (cmd ++ "_" ++ stratum) = some tbl) :
    updateTableData true stored cmd stratum = some tbl ∧
    ("ID" ∈ tbl.cols →
      updateTableData false stored cmd stratum =
        some { cols := tbl.cols.filter (fun c => ¬ c = "ID")
               rows := tbl.rows.map
                 (fun r => r.filter (fun kv => ¬ kv.1 = "ID")) }) ∧
    (¬ "ID" ∈ tbl.cols →
      updateTableData false stored cmd stratum = none) := by
  refine ⟨?_, ?_, ?_⟩
  · simp [updateTableData, hget]
  · intro hID
    simp [updateTableData, hget, dropColumn, hID]
  · intro hID
    simp [updateTableData, hget, dropColumn, hID]

/-- C10 witness: a concrete stored table with an ID column, displayed in
both modes. -/
theorem c10_id_column_display_witness :
    updateTableData true [("PSD_CH", tblW)] "PSD" "CH" = some tblW ∧
    updateTableData false [("PSD_CH", tblW)] "PSD" "CH" =
      some { cols := ["V"], rows := [[("V", "1")]] } := by
  have h := c10_id_column_display [("PSD_CH", tblW)] "PSD" "CH" tblW rfl
  refine ⟨h.1, ?_⟩
  rw [h.2.1 (by decide)]
  rfl

/-- C7. `_finish_project_eval` publishes the aggregate map unchanged as
the result set, and builds the combined index by concatenating the
per-record key frames in record order and removing duplicate
`(command, stratum)` rows with the first occurrence kept: the index has no
duplicates, holds exactly the keys of the concatenation, and for any split
of the concatenation the later part contributes exactly its rows not
already occurring earlier, while the earlier part's dedup is unaffected. -/
theorem c7_finish_index (s : ScopeState) (h : ¬ s.projTbls = []) :
    (finishProjectEval s).results = s.projResults ∧
    (finishProjectEval s).projResults = s.projResults ∧
    (finishProjectEval s).treeIndex =
      some (drop_duplicates s.projTbls.flatten) ∧
    (drop_duplicates s.projTbls.flatten).Nodup ∧
    (∀ k : RKey, k ∈ drop_duplicates s.projTbls.flatten ↔
      k ∈ s.projTbls.flatten) ∧
    (∀ l1 l2 : List RKey, s.projTbls.flatten = l1 ++ l2 →
      drop_duplicates (l1 ++ l2) = drop_duplicates l1 ++ ddAux l2 l1 ∧
      (∀ k : RKey, k ∈ ddAux l2 l1 ↔ (k ∈ l2 ∧ ¬ k ∈ l1))) := by
  have h1 : finishProjectEval s =
      { s with results := s.projResults
               treeIndex := some (drop_duplicates s.projTbls.flatten) } := by
    rw [finishProjectEval, if_neg h]
  exact ⟨by rw [h1], by rw [h1], by rw [h1], nodup_drop_duplicates _,
    fun k => mem_drop_duplicates _ k,
    fun l1 l2 _ => ⟨drop_duplicates_append l1 l2,
      fun k => mem_ddAux l2 l1 k⟩⟩

/-- C7 witness: a duplicated key across two frames is kept once, at its
first position, and the aggregate map is republished unchanged. -/
theorem c7_finish_index_witness :
    (finishProjectEval
        { initState with
            projTbls := [[("A", "B"), ("C", "D")], [("A", "B")]]
            projResults := [("A_B", tblW)] }).results = [("A_B", tblW)] ∧
    (finishProjectEval
        { initState with
            projTbls := [[("A", "B"), ("C", "D")], [("A", "B")]]
            projResults := [("A_B", tblW)] }).treeIndex =
      some [("A", "B"), ("C", "D")] := by
  have h := c7_finish_index
    { initState with
        projTbls := [[("A", "B"), ("C", "D")], [("A", "B")]]
        projResults := [("A_B", tblW)] } (by decide)
  refine ⟨h.1.trans rfl, ?_⟩
  rw [h.2.2.1]
  rfl

/-- C4. Two records of a project run both producing a table under the same
`(command, stratum)` key with tables `t1` and `t2`: the aggregate entry
for that key is the concatenation with all of `t1`'s rows first and all of
`t2`'s rows after them (so `m` and `n` rows merge to `m + n`), and in
general merging onto an existing entry only ever appends the new rows to
the stored rows — nothing is overwritten or dropped. -/
theorem c4_same_key_concat (k : RKey) (t1 t2 : STable) (s : ScopeState)
    (hb : s.busy = false) :
    (projEval true [mkOkRec [k] (fun _ => t1), mkOkRec [k] (fun _ => t2)]
        s).projResults = [(joinKey k, concatTables t1 t2)] ∧
    (concatTables t1 t2).rows = t1.rows ++ t2.rows ∧
    (concatTables t1 t2).rows.length = t1.rows.length + t2.rows.length ∧
    (∀ tableOf : RKey → STable, ∀ m : List (String × STable), ∀ r : RKey,
      ∀ t : STable, alist_get m (joinKey r) = some t →
      alist_get (accRow tableOf m r) (joinKey r) =
          some (concatTables t (tableOf r)) ∧
      (concatTables t (tableOf r)).rows = t.rows ++ (tableOf r).rows) := by
  refine ⟨?_, rfl, by simp [concatTables], ?_⟩
  · rw [projEval_run _ _ hb, (finish_fields _).2.2.2.2.2.2.1]
    simp [recAccum, frameOf, mkOkRec, accRow, alist_get, alist_set]
  · intro tableOf m r t hget
    refine ⟨?_, rfl⟩
    simp only [accRow, hget]
    exact alist_get_set_self m (joinKey r) (concatTables t (tableOf r))

/-- C4 witness: 3 rows and 5 rows under the same key merge to exactly the
8 rows in record order. -/
theorem c4_same_key_concat_witness :
    (projEval true
        [mkOkRec [("X", "Y")] (fun _ =>
          { cols := ["ID"], rows := [[("ID", "a")], [("ID", "b")],
            [("ID", "c")]] })
         , mkOkRec [("X", "Y")] (fun _ =>
          { cols := ["ID"], rows := [[("ID", "d")], [("ID", "e")],
            [("ID", "f")], [("ID", "g")], [("ID", "h")]] })]
        initState).projResults =
      [("X_Y", { cols := ["ID"]
                 rows := [[("ID", "a")], [("ID", "b")], [("ID", "c")],
                   [("ID", "d")], [("ID", "e")], [("ID", "f")],
                   [("ID", "g")], [("ID", "h")]] })] := by
  have h := c4_same_key_concat ("X", "Y")
    { cols := ["ID"], rows := [[("ID", "a")], [("ID", "b")],
      [("ID", "c")]] }
    { cols := ["ID"], rows := [[("ID", "d")], [("ID", "e")],
      [("ID", "f")], [("ID", "g")], [("ID", "h")]] }
    initState rfl
  rw [h.1]
  rfl

/-- C6. A project run in which one record's evaluation fails (engine
error) is not aborted: the failure path still advances, the run reaches
the finished state (`index = recordCount`), and the key frames and the
aggregate map are exactly those of the non-failing records, in order. -/
theorem c6_one_failure_skipped (l1 l2 : List RecordEval) (rb : RecordEval)
    (e : LunaErr) (s : ScopeState) (hb : s.busy = false)
    (herr : rb.eval = Except.error e) :
    (projEval true (l1 ++ rb :: l2) s).projI = (l1 ++ rb :: l2).length ∧
    (projEval true (l1 ++ rb :: l2) s).projN = (l1 ++ rb :: l2).length ∧
    (projEval true (l1 ++ rb :: l2) s).projTbls =
      (l1 ++ l2).filterMap frameOf ∧
    (projEval true (l1 ++ rb :: l2) s).projResults =
      (l1 ++ l2).foldl recAccum [] := by
  obtain ⟨ev, cb, pull, strata, tbl⟩ := rb
  simp only at herr
  subst herr
  have hfn : frameOf
      { eval := Except.error e, cbRaises := cb, pullRaises := pull
        strata := strata, table := tbl } = none := by
    cases cb <;> cases pull <;> rfl
  refine ⟨?_, ?_, ?_, ?_⟩
  · rw [projEval_run _ _ hb, (finish_fields _).2.2.2.1]
  · rw [projEval_run _ _ hb, (finish_fields _).2.2.2.2.1]
  · rw [projEval_run _ _ hb, (finish_fields _).2.2.2.2.2.1]
    show (l1 ++ _ :: l2).filterMap frameOf = _
    simp [List.filterMap_append, List.filterMap_cons, hfn]
  · rw [projEval_run _ _ hb, (finish_fields _).2.2.2.2.2.2.1]
    show (l1 ++ _ :: l2).foldl recAccum [] = _
    rw [List.foldl_append, List.foldl_cons]
    have : recAccum (l1.foldl recAccum [])
        { eval := Except.error e, cbRaises := cb, pullRaises := pull
          strata := strata, table := tbl } = l1.foldl recAccum [] := by
      simp [recAccum, hfn]
    rw [this, ← List.foldl_append]

/-- C6 witness: record 2 of 3 fails; records 1 and 3 still contribute and
the run reaches the finished state. -/
theorem c6_one_failure_skipped_witness :
    (projEval true
        ([mkOkRec [("A", "S1")] (fun _ => tblW)] ++
          mkErrRec errW :: [mkOkRec [("C", "S2")] (fun _ => tblW2)])
        initState).projI = 3 ∧
    (projEval true
        ([mkOkRec [("A", "S1")] (fun _ => tblW)] ++
          mkErrRec errW :: [mkOkRec [("C", "S2")] (fun _ => tblW2)])
        initState).projTbls = [[("A", "S1")], [("C", "S2")]] ∧
    (projEval true
        ([mkOkRec [("A", "S1")] (fun _ => tblW)] ++
          mkErrRec errW :: [mkOkRec [("C", "S2")] (fun _ => tblW2)])
        initState).projResults = [("A_S1", tblW), ("C_S2", tblW2)] := by
  have h := c6_one_failure_skipped
    [mkOkRec [("A", "S1")] (fun _ => tblW)]
    [mkOkRec [("C", "S2")] (fun _ => tblW2)]
    (mkErrRec errW) errW initState rfl rfl
  exact ⟨h.1.trans rfl, h.2.2.1.trans rfl, h.2.2.2.trans rfl⟩

/-- C8 counterexample.  A record whose evaluation completes successfully
but whose `strata()` listing is `None` (a display-only command, `reNoneW`)
appends no key frame at all: after a one-record project run the key-frame
list is empty, not of length one.  This refutes the claim that every
successfully completed record appends exactly one entry. -/
theorem c8_counterexample :
    reNoneW.eval = Except.ok "" ∧
    reNoneW.cbRaises = none ∧
    reNoneW.pullRaises = false ∧
    (projEval true [reNoneW] initState).projTbls = [] ∧
    ¬ (projEval true [reNoneW] initState).projTbls.length = 1 := by
  refine ⟨rfl, rfl, rfl, rfl, by decide⟩

/-- C8 (amended).  During a project run every record whose evaluation
completes successfully and whose table listing is present appends exactly
one entry to the key-frame list — including an empty listing with zero
rows — while a successful record whose listing is `None` appends nothing;
the key-frame list is the in-order list of exactly those present
listings. -/
theorem c8_frames_one_per_successful_record (recs : List RecordEval)
    (s : ScopeState) (hb : s.busy = false) :
    (projEval true recs s).projTbls = recs.filterMap frameOf ∧
    (∀ re : RecordEval, ∀ txt : String, re.eval = Except.ok txt →
      re.cbRaises = none → re.pullRaises = false →
      frameOf re = re.strata) := by
  constructor
  · rw [projEval_run _ _ hb, (finish_fields _).2.2.2.2.2.1]
  · intro re txt h1 h2 h3
    obtain ⟨ev, cb, pull, strata, tbl⟩ := re
    simp only at h1 h2 h3
    subst h1; subst h2; subst h3
    rfl

/-- C8 witness: a successful record with an empty (zero-row) listing still
appends exactly one (empty) key frame. -/
theorem c8_frames_one_per_successful_record_witness :
    (projEval true [mkOkRec [] (fun _ => tblW)] initState).projTbls =
      [[]] ∧
    frameOf (mkOkRec [] (fun _ => tblW)) = some [] := by
  have h := c8_frames_one_per_successful_record
    [mkOkRec [] (fun _ => tblW)] initState rfl
  exact ⟨h.1.trans rfl,
    (h.2 (mkOkRec [] (fun _ => tblW)) "" rfl rfl rfl).trans rfl⟩

/-- When the joined dictionary keys contributed across the whole run are
pairwise distinct, the aggregate map ends up holding exactly one entry per
contributed key, in record order. -/
theorem projResults_of_run (recs : List RecordEval) (s : ScopeState)
    (hb : s.busy = false)
    (hmapnd : ((allKeys recs).map joinKey).Nodup) :
    (projEval true recs s).projResults = projEntries recs := by
  rw [projEval_run _ _ hb, (finish_fields _).2.2.2.2.2.2.1]
  have h := foldRecAccum_fresh recs [] hmapnd (fun k _ => by simp)
  simpa using h

/-- C1 counterexample.  The aggregate map is keyed by the underscore-joined
string `command ++ "_" ++ stratum`, so the disjoint pairs `("A_B", "C")`
and `("A", "B_C")` — one per record — collide on the key `"A_B_C"`: after
the run the aggregate map has a single entry although the records
contributed two distinct `(command, stratum)` pairs (the deduplicated
combined index has both).  This refutes the claim that the final aggregate
map always has one entry per distinct `(command, stratum)` pair. -/
theorem c1_counterexample :
    (∀ k : RKey, k ∈ [(("A_B" : String), ("C" : String))] →
      ¬ k ∈ [(("A" : String), ("B_C" : String))]) ∧
    (projEval true [reColl1, reColl2] initState).projResults.length = 1 ∧
    (drop_duplicates (allKeys [reColl1, reColl2])).length = 2 ∧
    ¬ ((projEval true [reColl1, reColl2] initState).projResults.length =
        (drop_duplicates (allKeys [reColl1, reColl2])).length) := by
  refine ⟨by decide, rfl, rfl, by decide⟩

/-- C1 (amended).  For a project run over records each producing a present
set of `(command, stratum)` keys, the key sets pairwise disjoint across
records, and — additionally, as the underscore-join forces — no two
distinct pairs joining to the same dictionary string: the final aggregate
map has exactly one entry per distinct pair, its keys are exactly the
joined union of the per-record keys (a membership characterization
independent of record order, and permuting the records permutes the key
list), and the combined index built by finish is exactly the union with no
duplicates, so it has exactly as many keys as the aggregate map has
entries. -/
theorem c1_disjoint_union (recs : List RecordEval) (s : ScopeState)
    (hb : s.busy = false) (hne : ¬ recs = [])
    (hall : ∀ re ∈ recs, (frameOf re).isSome = true)
    (hset : ∀ f ∈ recs.filterMap frameOf, f.Nodup)
    (hdisj : (recs.filterMap frameOf).Pairwise List.Disjoint)
    (hinj : ∀ k ∈ allKeys recs, ∀ k2 ∈ allKeys recs,
      joinKey k = joinKey k2 → k = k2) :
    (projEval true recs s).projResults.map Prod.fst =
      (allKeys recs).map joinKey ∧
    (allKeys recs).Nodup ∧
    (projEval true recs s).treeIndex = some (allKeys recs) ∧
    (projEval true recs s).projResults.length = (allKeys recs).length ∧
    (∀ kstr : String,
      kstr ∈ (projEval true recs s).projResults.map Prod.fst ↔
      ∃ k : RKey, (∃ f ∈ recs.filterMap frameOf, k ∈ f) ∧
        joinKey k = kstr) ∧
    (∀ recs2 : List RecordEval, recs.Perm recs2 →
      ((projEval true recs2 s).projResults.map Prod.fst).Perm
        ((projEval true recs s).projResults.map Prod.fst)) := by
  have hndk : (allKeys recs).Nodup := by
    rw [allKeys, List.nodup_flatten]
    exact ⟨hset, hdisj⟩
  have hmapnd : ((allKeys recs).map joinKey).Nodup := hndk.map_on hinj
  have hres := projResults_of_run recs s hb hmapnd
  have hmapfst : (projEval true recs s).projResults.map Prod.fst =
      (allKeys recs).map joinKey := by
    rw [hres, projEntries_map_fst]
  have hne2 : ¬ recs.filterMap frameOf = [] := by
    cases recs with
    | nil => exact absurd rfl hne
    | cons re rest =>
        have h1 := hall re (List.mem_cons_self re rest)
        cases hf : frameOf re with
        | none => rw [hf] at h1; simp at h1
        | some rows => simp [List.filterMap_cons, hf]
  refine ⟨hmapfst, hndk, ?_, ?_, ?_, ?_⟩
  · rw [projEval_run _ _ hb, finishProjectEval, if_neg (by simpa using hne2)]
    show some (drop_duplicates (recs.filterMap frameOf).flatten) = _
    rw [show (recs.filterMap frameOf).flatten = allKeys recs from rfl,
      drop_duplicates_of_nodup _ hndk]
  · have := congrArg List.length hmapfst
    simpa using this
  · intro kstr
    rw [hmapfst]
    constructor
    · intro hmem
      rcases List.mem_map.mp hmem with ⟨k, hk, hjk⟩
      simp only [allKeys] at hk
      rcases List.mem_flatten.mp hk with ⟨f, hf, hkf⟩
      exact ⟨k, ⟨f, hf, hkf⟩, hjk⟩
    · rintro ⟨k, ⟨f, hf, hkf⟩, hjk⟩
      refine List.mem_map.mpr ⟨k, ?_, hjk⟩
      simp only [allKeys]
      exact List.mem_flatten.mpr ⟨f, hf, hkf⟩
  · intro recs2 hp
    have hpak : (allKeys recs).Perm (allKeys recs2) :=
      (hp.filterMap frameOf).flatten
    have hmapnd2 : ((allKeys recs2).map joinKey).Nodup :=
      ((hpak.map joinKey).nodup_iff).mp hmapnd
    have hres2 := projResults_of_run recs2 s hb hmapnd2
    rw [hres, hres2, projEntries_map_fst, projEntries_map_fst]
    exact (hpak.map joinKey).symm

/-- C1 witness: two records with disjoint, collision-free key sets; the
aggregate map keys are the joined union in record order and the index is
the union itself. -/
theorem c1_disjoint_union_witness :
    (projEval true
        [mkOkRec [("PSD", "CH")] (fun _ => tblW),
         mkOkRec [("SPINDLES", "CH"), ("SPINDLES", "CH_F")]
           (fun _ => tblW2)]
        initState).projResults.map Prod.fst =
      ["PSD_CH", "SPINDLES_CH", "SPINDLES_CH_F"] ∧
    (projEval true
        [mkOkRec [("PSD", "CH")] (fun _ => tblW),
         mkOkRec [("SPINDLES", "CH"), ("SPINDLES", "CH_F")]
           (fun _ => tblW2)]
        initState).treeIndex =
      some [("PSD", "CH"), ("SPINDLES", "CH"), ("SPINDLES", "CH_F")] := by
  have h := c1_disjoint_union
    [mkOkRec [("PSD", "CH")] (fun _ => tblW),
     mkOkRec [("SPINDLES", "CH"), ("SPINDLES", "CH_F")] (fun _ => tblW2)]
    initState rfl (by simp) (by decide) (by decide)
    (by simp [mkOkRec, frameOf, List.filterMap_cons, List.pairwise_cons])
    (by decide)
  exact ⟨h.1.trans (by decide), h.2.2.1.trans (by decide)⟩
